import Mathlib

set_option linter.unusedVariables false

/-!
Verification of the parallel page-rendering pipeline of `src/src/main.js`
(classes `WorkerPool` and `ImageConverter`, plus the converter lifecycle of
their callers in `VaultWriter` and `SupernoteView`).

The JavaScript is embedded shallowly: object state becomes explicit record
state, `async`/`Promise` control flow becomes `Except` values, and the worker
message round trip (whose script lives outside this translation unit) is a
function parameter.  Machine arithmetic is exact here: all quantities are list
lengths and indices, which JavaScript represents exactly as doubles well beyond
the sizes reachable in this code.
-/

/-- A rendered page image: the worker replies with one data-URL string per
page (`e.data.images` in `processChunk`). -/
abbrev Image := String

/-- One page of a parsed Supernote file; `sn.pages[i]` exposes its recognized
`text`. -/
structure Page where
  text : String

/-- The parsed note (`SupernoteX` from the parsing library): an ordered list
of pages.  Only the page list is consumed by the conversion pipeline. -/
structure SupernoteX where
  pages : List Page

/-- Errors with which a chunk promise of `processChunk` can reject:
`workerError` covers a reply carrying `e.data.error` and the `worker.onerror`
path alike; `typeError` is the JavaScript TypeError raised when the dispatch
accesses a property of an undefined worker slot, which is possible only on a
terminated pool whose `workers` array is empty. -/
inductive Err where
  | workerError (msg : String)
  | typeError
  deriving DecidableEq

/-- The worker message round trip performed by `processChunk`: worker `wid`
receives the posted `convert` message with the note and its page numbers and
replies through `onmessage` with images (resolve) or an error (reject).  The
worker script itself is a separate compilation unit, so the reply behaviour is
kept as a parameter throughout. -/
abbrev Respond := Nat → SupernoteX → List Nat → Except Err (List Image)

/-- The pool state: the `this.workers` array, built by the constructor and
emptied by `terminate()`.  Worker handles are modelled by slot identifiers. -/
structure WorkerPool where
  workers : List Nat

/-- Constructor `new WorkerPool(maxWorkers)` (main.js lines 56-60):
`Array(maxWorkers).fill(null).map(() => new Worker())` builds `maxWorkers`
fresh worker units. -/
def WorkerPool.new (maxWorkers : Nat) : WorkerPool :=
  ⟨List.range maxWorkers⟩

/-- Method `terminate()` (lines 116-119): terminates every worker unit and
then assigns `this.workers = []`.  The body contains no throwing operation. -/
def WorkerPool.terminate (pool : WorkerPool) : WorkerPool :=
  ⟨[]⟩

/-- The computation `Math.ceil(allPageNumbers.length / this.workers.length)`
(line 96).  For `w ≥ 1` this is the usual ceiling `(n + w - 1) / w`.  On a
terminated pool `w = 0` and JavaScript yields `Infinity` when `n > 0` (the
slice loop then pushes one chunk holding the whole list, exactly as size `n`
does) and `NaN` when `n = 0` (the loop body never runs, as with size `0`), so
the chosen values reproduce the division-by-zero behaviour chunk for chunk. -/
def chunkSizeJS (n w : Nat) : Nat :=
  if w = 0 then n else (n + w - 1) / w

/-- The chunking loop of `processPages` (lines 99-101),
`for (let i = 0; i < n; i += chunkSize) chunks.push(allPageNumbers.slice(i, i + chunkSize))`,
written as recursion on the unconsumed suffix.  The `fuel` argument counts the
elements not yet consumed, making the recursion structural; every actual call
supplies `fuel = l.length`, which suffices because each iteration consumes
`size ≥ 1` elements, the degenerate `size = 0` arising only for an empty input
where the loop body never runs. -/
def chunksFuel (size : Nat) : Nat → List Nat → List (List Nat)
  | 0, _ => []
  | _ + 1, [] => []
  | fuel + 1, x :: xs => (x :: xs).take size :: chunksFuel size fuel ((x :: xs).drop size)

/-- The chunk list produced by the loop of lines 99-101 for a given
`chunkSize` and input list. -/
def chunksLoop (size : Nat) (l : List Nat) : List (List Nat) :=
  chunksFuel size l.length l

/-- The worker slot lookup `this.workers[index % this.workers.length]`
(line 108).  On a terminated pool the array is empty and the lookup yields
`undefined`, here `none`. -/
def WorkerPool.workerAt (pool : WorkerPool) (index : Nat) : Option Nat :=
  pool.workers[index % pool.workers.length]?

/-- Method `processChunk(worker, note, pageNumbers)` (lines 62-90): registers
`onmessage` and `onerror` on the worker and posts the `convert` message; the
returned promise resolves with `e.data.images` or rejects with the reported
error.  When the worker slot is `undefined`, assigning its `onmessage`
property throws inside the promise executor, which rejects the promise with a
TypeError. -/
def processChunk (worker : Option Nat) (respond : Respond) (note : SupernoteX)
    (pageNumbers : List Nat) : Except Err (List Image) :=
  match worker with
  | none => .error .typeError
  | some wid => respond wid note pageNumbers

/-- The dispatch of lines 107-109,
`chunks.map((chunk, index) => this.processChunk(this.workers[index % this.workers.length], note, chunk))`,
with the running map index made explicit. -/
def dispatchChunks (pool : WorkerPool) (respond : Respond) (note : SupernoteX) :
    Nat → List (List Nat) → List (Except Err (List Image))
  | _, [] => []
  | index, chunk :: rest =>
    processChunk (pool.workerAt index) respond note chunk ::
      dispatchChunks pool respond note (index + 1) rest

/-- The semantics of `await Promise.all(...)` (line 106) over the settled
chunk promises: fulfils with the array of chunk results when every promise
resolves, rejects otherwise; the model deterministically surfaces the first
rejection in dispatch order. -/
def promiseAll : List (Except Err (List Image)) → Except Err (List (List Image))
  | [] => .ok []
  | p :: ps =>
    match p, promiseAll ps with
    | .error e, _ => .error e
    | .ok _, .error e => .error e
    | .ok v, .ok vs => .ok (v :: vs)

/-- The chunking step of `processPages` (lines 96-101) for a given pool. -/
def WorkerPool.chunksOf (pool : WorkerPool) (allPageNumbers : List Nat) : List (List Nat) :=
  chunksLoop (chunkSizeJS allPageNumbers.length pool.workers.length) allPageNumbers

/-- Method `async processPages(note, allPageNumbers)` (lines 92-114): chunk
the page numbers, dispatch the chunks round-robin over the worker slots, await
them all, and return `results.flat()`. -/
def WorkerPool.processPages (pool : WorkerPool) (respond : Respond) (note : SupernoteX)
    (allPageNumbers : List Nat) : Except Err (List Image) :=
  match promiseAll (dispatchChunks pool respond note 0 (pool.chunksOf allPageNumbers)) with
  | .error e => .error e
  | .ok results => .ok results.flatten

/-- The `ImageConverter` state: the pool built by its constructor (line 126)
and never reassigned afterwards. -/
structure ImageConverter where
  workerPool : WorkerPool

/-- Constructor `new ImageConverter(maxWorkers)` (lines 125-127): builds the
converter's own `WorkerPool`. -/
def ImageConverter.new (maxWorkers : Nat) : ImageConverter :=
  ⟨WorkerPool.new maxWorkers⟩

/-- The default page list `Array.from({length: note.pages.length}, (_, i) => i + 1)`
of line 130: the 1-based page numbers `[1, ..., note.pages.length]`. -/
def defaultPages (note : SupernoteX) : List Nat :=
  List.range' 1 note.pages.length

/-- Method `convertToImages(note, pageNumbers?)` (lines 129-133): defaults the
page list when absent and returns the awaited `processPages` result. -/
def ImageConverter.convertToImages (conv : ImageConverter) (respond : Respond)
    (note : SupernoteX) (pageNumbers : Option (List Nat)) : Except Err (List Image) :=
  conv.workerPool.processPages respond note (pageNumbers.getD (defaultPages note))

/-- Method `terminate()` of `ImageConverter` (lines 135-137): forwards to the
pool's `terminate()`. -/
def ImageConverter.terminate (conv : ImageConverter) : ImageConverter :=
  ⟨conv.workerPool.terminate⟩

/-- Resource events performed while evaluating a region of the code: how many
`new WorkerPool(...)` constructions it runs, how many `new Worker()`
constructions, and how many pool `terminate()` invocations. -/
structure ResourceEvents where
  poolsCreated : Nat
  workersConstructed : Nat
  terminateCalls : Nat

/-- Componentwise accumulation of resource events of consecutive regions. -/
def ResourceEvents.add (a b : ResourceEvents) : ResourceEvents :=
  ⟨a.poolsCreated + b.poolsCreated, a.workersConstructed + b.workersConstructed,
    a.terminateCalls + b.terminateCalls⟩

/-- Constructor `new ImageConverter(maxWorkers)` together with its resource
events: lines 125-127 run `new WorkerPool(maxWorkers)` once, whose body
(lines 56-60) runs `new Worker()` exactly `maxWorkers` times. -/
def ImageConverter.newEv (maxWorkers : Nat) : ImageConverter × ResourceEvents :=
  (ImageConverter.new maxWorkers, ⟨1, maxWorkers, 0⟩)

/-- One `convertToImages` call together with its resource events.  The body
(lines 129-133) only computes the page list and awaits `processPages`, which
posts messages to the already-existing workers: it constructs no pool,
constructs no worker, and performs no `terminate()`. -/
def ImageConverter.convertToImagesEv (conv : ImageConverter) (respond : Respond)
    (note : SupernoteX) (pageNumbers : Option (List Nat)) :
    Except Err (List Image) × ResourceEvents :=
  (conv.convertToImages respond note pageNumbers, ⟨0, 0, 0⟩)

/-- Converter `terminate()` together with its resource events: lines 135-137
invoke `terminate()` once on the owned pool. -/
def ImageConverter.terminateEv (conv : ImageConverter) : ImageConverter × ResourceEvents :=
  (conv.terminate, ⟨0, 0, 1⟩)

/-- The converter lifecycle performed by each caller of `convertToImages`
(`VaultWriter.writeImageFiles` lines 184-190, and identically
`VaultWriter.exportToPDF` lines 228-234 and `SupernoteView.onLoadFile`
lines 291-297):
`const converter = new ImageConverter(); try { images = await converter.convertToImages(sn); } finally { converter.terminate(); }`.
The `finally` clause runs on the success path and on the failure path alike,
so the model applies it unconditionally after the call settles.  Returns the
call outcome, the converter's final state, and the accumulated resource
events of the whole region. -/
def writeImageFilesLifecycle (maxWorkers : Nat) (respond : Respond) (note : SupernoteX) :
    Except Err (List Image) × ImageConverter × ResourceEvents :=
  let stepNew := ImageConverter.newEv maxWorkers
  let stepCall := stepNew.1.convertToImagesEv respond note none
  let stepTerm := stepNew.1.terminateEv
  (stepCall.1, stepTerm.1, (stepNew.2.add stepCall.2).add stepTerm.2)

/-- A three-page note used as a concrete test fixture. -/
def note3 : SupernoteX := ⟨[⟨"a"⟩, ⟨"b"⟩, ⟨"c"⟩]⟩

/-- A zero-page note used as a concrete test fixture. -/
def note0 : SupernoteX := ⟨[]⟩

/-- A concrete per-page render used by the fixtures. -/
def render0 (j : Nat) : Image := "p" ++ toString j

/-- A worker reply that renders every assigned page in order. -/
def respondAll : Respond := fun _ _ ch => .ok (ch.map render0)

/-- A worker reply that fails on any chunk containing page 2 and renders other
chunks in order, modelling the failing-page scenario. -/
def respondFail : Respond := fun _ _ ch =>
  if ch.contains 2 then .error (.workerError "page 2 failed") else .ok (ch.map render0)

/-! Basic facts about the chunking loop. -/

theorem chunksFuel_nil (size fuel : Nat) : chunksFuel size fuel [] = [] := by
  cases fuel <;> rfl

theorem chunksFuel_congr (size : Nat) (hs : 1 ≤ size) :
    ∀ (f1 f2 : Nat) (l : List Nat), l.length ≤ f1 → l.length ≤ f2 →
      chunksFuel size f1 l = chunksFuel size f2 l := by
  intro f1
  induction f1 with
  | zero =>
    intro f2 l h1 h2
    have hl : l = [] := List.eq_nil_of_length_eq_zero (Nat.le_zero.mp h1)
    subst hl
    simp [chunksFuel_nil]
  | succ f ih =>
    intro f2 l h1 h2
    cases l with
    | nil => simp [chunksFuel_nil]
    | cons x xs =>
      have hx1 : xs.length ≤ f := by simpa using h1
      cases f2 with
      | zero => simp at h2
      | succ g =>
        have hx2 : xs.length ≤ g := by simpa using h2
        simp only [chunksFuel]
        congr 1
        apply ih
        · simp; omega
        · simp; omega

theorem chunksLoop_nil (size : Nat) : chunksLoop size [] = [] := rfl

theorem chunksLoop_cons (size : Nat) (hs : 1 ≤ size) (x : Nat) (xs : List Nat) :
    chunksLoop size (x :: xs) =
      (x :: xs).take size :: chunksLoop size ((x :: xs).drop size) := by
  show chunksFuel size (x :: xs).length (x :: xs) = _
  simp only [List.length_cons, chunksFuel]
  congr 1
  apply chunksFuel_congr size hs
  · simp; omega
  · exact Nat.le_refl _

theorem chunkSizeJS_pos (n w : Nat) (hn : 1 ≤ n) : 1 ≤ chunkSizeJS n w := by
  rw [chunkSizeJS]
  by_cases hw : w = 0
  · simpa [hw] using hn
  · rw [if_neg hw, Nat.one_le_div_iff (by omega)]
    omega

theorem chunksFuel_flatten (size : Nat) (hs : 1 ≤ size) :
    ∀ (fuel : Nat) (l : List Nat), l.length ≤ fuel →
      (chunksFuel size fuel l).flatten = l := by
  intro fuel
  induction fuel with
  | zero =>
    intro l h
    have hl : l = [] := List.eq_nil_of_length_eq_zero (Nat.le_zero.mp h)
    subst hl
    rfl
  | succ f ih =>
    intro l h
    cases l with
    | nil => rfl
    | cons x xs =>
      have hx : xs.length ≤ f := by simpa using h
      simp only [chunksFuel, List.flatten_cons]
      rw [ih _ (by simp; omega)]
      exact List.take_append_drop size (x :: xs)

theorem chunksLoop_flatten (size : Nat) (hs : 1 ≤ size) (l : List Nat) :
    (chunksLoop size l).flatten = l :=
  chunksFuel_flatten size hs l.length l (Nat.le_refl _)

theorem chunksFuel_length (size : Nat) (hs : 1 ≤ size) :
    ∀ (fuel : Nat) (l : List Nat), l.length ≤ fuel →
      (chunksFuel size fuel l).length = (l.length + size - 1) / size := by
  intro fuel
  induction fuel with
  | zero =>
    intro l h
    have hl : l = [] := List.eq_nil_of_length_eq_zero (Nat.le_zero.mp h)
    subst hl
    have hz : (size - 1) / size = 0 := Nat.div_eq_of_lt (by omega)
    simp [chunksFuel_nil, hz]
  | succ f ih =>
    intro l h
    cases l with
    | nil =>
      have hz : (size - 1) / size = 0 := Nat.div_eq_of_lt (by omega)
      simp [chunksFuel_nil, hz]
    | cons x xs =>
      have hx : xs.length ≤ f := by simpa using h
      simp only [chunksFuel, List.length_cons]
      rw [ih _ (by simp; omega)]
      simp only [List.length_drop, List.length_cons]
      by_cases hc : xs.length + 1 ≤ size
      · have hz : xs.length + 1 - size = 0 := by omega
        rw [hz]
        have h1 : (0 + size - 1) / size = 0 := Nat.div_eq_of_lt (by omega)
        have h2 : (xs.length + 1 + size - 1) / size = 1 := by
          apply Nat.div_eq_of_lt_le
          · omega
          · omega
        omega
      · have e1 : xs.length + 1 - size + size - 1 = xs.length := by omega
        have e2 : xs.length + 1 + size - 1 = xs.length + size := by omega
        rw [e1, e2, Nat.add_div_right _ (by omega : 0 < size)]

theorem chunksLoop_length (size : Nat) (hs : 1 ≤ size) (l : List Nat) :
    (chunksLoop size l).length = (l.length + size - 1) / size :=
  chunksFuel_length size hs l.length l (Nat.le_refl _)

theorem chunksFuel_ne_nil (size : Nat) (hs : 1 ≤ size) :
    ∀ (fuel : Nat) (l : List Nat), l.length ≤ fuel →
      ∀ s ∈ chunksFuel size fuel l, s ≠ [] := by
  intro fuel
  induction fuel with
  | zero =>
    intro l h s hm
    have hl : l = [] := List.eq_nil_of_length_eq_zero (Nat.le_zero.mp h)
    subst hl
    simp [chunksFuel_nil] at hm
  | succ f ih =>
    intro l h s hm
    cases l with
    | nil => simp [chunksFuel_nil] at hm
    | cons x xs =>
      have hx : xs.length ≤ f := by simpa using h
      simp only [chunksFuel, List.mem_cons] at hm
      rcases hm with rfl | hm
      · simp [List.take_eq_nil_iff]
        omega
      · exact ih _ (by simp; omega) s hm

theorem chunksLoop_ne_nil (size : Nat) (hs : 1 ≤ size) (l : List Nat) :
    ∀ s ∈ chunksLoop size l, s ≠ [] :=
  chunksFuel_ne_nil size hs l.length l (Nat.le_refl _)

theorem chunksFuel_mem_len_le (size : Nat) (hs : 1 ≤ size) :
    ∀ (fuel : Nat) (l : List Nat), l.length ≤ fuel →
      ∀ s ∈ chunksFuel size fuel l, s.length ≤ size := by
  intro fuel
  induction fuel with
  | zero =>
    intro l h s hm
    have hl : l = [] := List.eq_nil_of_length_eq_zero (Nat.le_zero.mp h)
    subst hl
    simp [chunksFuel_nil] at hm
  | succ f ih =>
    intro l h s hm
    cases l with
    | nil => simp [chunksFuel_nil] at hm
    | cons x xs =>
      have hx : xs.length ≤ f := by simpa using h
      simp only [chunksFuel, List.mem_cons] at hm
      rcases hm with rfl | hm
      · simp [List.length_take]
      · exact ih _ (by simp; omega) s hm

theorem chunksLoop_mem_len_le (size : Nat) (hs : 1 ≤ size) (l : List Nat) :
    ∀ s ∈ chunksLoop size l, s.length ≤ size :=
  chunksFuel_mem_len_le size hs l.length l (Nat.le_refl _)

theorem chunksFuel_dropLast_len (size : Nat) (hs : 1 ≤ size) :
    ∀ (fuel : Nat) (l : List Nat), l.length ≤ fuel →
      ∀ s ∈ (chunksFuel size fuel l).dropLast, s.length = size := by
  intro fuel
  induction fuel with
  | zero =>
    intro l h s hm
    have hl : l = [] := List.eq_nil_of_length_eq_zero (Nat.le_zero.mp h)
    subst hl
    simp [chunksFuel_nil] at hm
  | succ f ih =>
    intro l h s hm
    cases l with
    | nil => simp [chunksFuel_nil] at hm
    | cons x xs =>
      have hx : xs.length ≤ f := by simpa using h
      simp only [chunksFuel] at hm
      by_cases hd : (x :: xs).drop size = []
      · rw [hd, chunksFuel_nil] at hm
        simp at hm
      · have hlen : size < xs.length + 1 := by
          by_contra hcon
          exact hd (List.drop_eq_nil_of_le (by simp; omega))
        have hne : chunksFuel size f ((x :: xs).drop size) ≠ [] := by
          cases hdd : (x :: xs).drop size with
          | nil => exact absurd hdd hd
          | cons y ys =>
            cases f with
            | zero =>
              have hL : ((x :: xs).drop size).length ≤ 0 := by simp; omega
              rw [hdd] at hL
              simp at hL
            | succ g => simp [chunksFuel]
        rw [List.dropLast_cons_of_ne_nil hne] at hm
        rcases List.mem_cons.mp hm with rfl | hm2
        · simp [List.length_take]
          omega
        · exact ih _ (by simp; omega) s hm2

theorem chunksLoop_dropLast_len (size : Nat) (hs : 1 ≤ size) (l : List Nat) :
    ∀ s ∈ (chunksLoop size l).dropLast, s.length = size :=
  chunksFuel_dropLast_len size hs l.length l (Nat.le_refl _)

theorem chunksLoop_count_le (l : List Nat) (p : Nat) (hp : 1 ≤ p) :
    (chunksLoop (chunkSizeJS l.length p) l).length ≤ p := by
  cases l with
  | nil => simp [chunksLoop_nil]
  | cons x xs =>
    have hn1 : 1 ≤ (x :: xs).length := by simp
    have hc : 1 ≤ chunkSizeJS (x :: xs).length p := chunkSizeJS_pos _ p hn1
    rw [chunksLoop_length _ hc]
    have hcv : chunkSizeJS (x :: xs).length p = ((x :: xs).length + p - 1) / p := by
      rw [chunkSizeJS, if_neg (by omega)]
    set n := (x :: xs).length with hn
    set c := chunkSizeJS n p with hcdef
    have hmod := Nat.div_add_mod (n + p - 1) p
    have hmlt : (n + p - 1) % p < p := Nat.mod_lt _ (by omega)
    have hnpc : n ≤ p * c := by rw [hcv]; omega
    have hlt : (n + c - 1) / c < p + 1 := by
      rw [Nat.div_lt_iff_lt_mul (by omega : 0 < c)]
      have hx : (p + 1) * c = p * c + c := by ring
      omega
    omega

theorem chunksOf_flatten (pool : WorkerPool) (l : List Nat) :
    (pool.chunksOf l).flatten = l := by
  cases l with
  | nil => rfl
  | cons x xs =>
    have hc : 1 ≤ chunkSizeJS (x :: xs).length pool.workers.length :=
      chunkSizeJS_pos _ _ (by simp)
    exact chunksLoop_flatten _ hc _

/-! Facts about worker lookup, dispatch and the joined promise. -/

theorem WorkerPool.workerAt_isSome (pool : WorkerPool) (hw : pool.workers ≠ [])
    (k : Nat) : (pool.workerAt k).isSome = true := by
  have hpos : 0 < pool.workers.length := List.length_pos.mpr hw
  have hlt : k % pool.workers.length < pool.workers.length := Nat.mod_lt _ hpos
  simp [WorkerPool.workerAt, List.getElem?_eq_getElem hlt]

theorem dispatchChunks_all_ok (pool : WorkerPool) (respond : Respond) (note : SupernoteX)
    (render : Nat → Image) (hw : pool.workers ≠ [])
    (hresp : ∀ wid ch, respond wid note ch = .ok (ch.map render)) :
    ∀ (k : Nat) (chs : List (List Nat)),
      dispatchChunks pool respond note k chs = chs.map (fun ch => .ok (ch.map render)) := by
  intro k chs
  induction chs generalizing k with
  | nil => rfl
  | cons ch rest ih =>
    simp only [dispatchChunks, List.map_cons]
    have hsome := pool.workerAt_isSome hw k
    obtain ⟨wid, hwid⟩ := Option.isSome_iff_exists.mp hsome
    rw [hwid]
    simp only [processChunk, hresp, ih]

theorem promiseAll_cons (p : Except Err (List Image)) (ps : List (Except Err (List Image))) :
    promiseAll (p :: ps) =
      match p, promiseAll ps with
      | .error e, _ => .error e
      | .ok _, .error e => .error e
      | .ok v, .ok vs => .ok (v :: vs) := rfl

theorem promiseAll_map_ok (g : List Nat → List Image) :
    ∀ chs : List (List Nat),
      promiseAll (chs.map fun ch => .ok (g ch)) = .ok (chs.map g) := by
  intro chs
  induction chs with
  | nil => rfl
  | cons ch rest ih =>
    rw [List.map_cons, promiseAll_cons, ih]
    rfl

theorem promiseAll_error_of_mem_error :
    ∀ ps : List (Except Err (List Image)),
      (∃ p ∈ ps, ∃ e, p = .error e) → ∃ e, promiseAll ps = .error e := by
  intro ps h
  induction ps with
  | nil => simp at h
  | cons p rest ih =>
    rcases h with ⟨q, hq, e, he⟩
    rcases List.mem_cons.mp hq with rfl | hmem
    · subst he
      exact ⟨e, rfl⟩
    · cases hp : p with
      | error e2 => exact ⟨e2, by rw [promiseAll_cons]⟩
      | ok v =>
        obtain ⟨e3, he3⟩ := ih ⟨q, hmem, e, he⟩
        exact ⟨e3, by rw [promiseAll_cons, he3]⟩

theorem dispatch_mem_error (pool : WorkerPool) (respond : Respond) (note : SupernoteX)
    (ch : List Nat) (hch : ∀ wid, ∃ m, respond wid note ch = .error m) :
    ∀ (chs : List (List Nat)) (k : Nat), ch ∈ chs →
      ∃ p ∈ dispatchChunks pool respond note k chs, ∃ e, p = .error e := by
  intro chs
  induction chs with
  | nil => intro k h; simp at h
  | cons a rest ih =>
    intro k h
    rcases List.mem_cons.mp h with rfl | hmem
    · refine ⟨processChunk (pool.workerAt k) respond note ch, by simp [dispatchChunks], ?_⟩
      cases hwk : pool.workerAt k with
      | none => exact ⟨.typeError, by simp [processChunk]⟩
      | some wid =>
        obtain ⟨m, hm⟩ := hch wid
        exact ⟨m, by simp [processChunk, hm]⟩
    · obtain ⟨p, hp, e, he⟩ := ih (k + 1) hmem
      exact ⟨p, by simp [dispatchChunks, hp], e, he⟩

theorem processPages_map (pool : WorkerPool) (respond : Respond) (note : SupernoteX)
    (render : Nat → Image) (l : List Nat) (hw : pool.workers ≠ [])
    (hresp : ∀ wid ch, respond wid note ch = .ok (ch.map render)) :
    pool.processPages respond note l = .ok (l.map render) := by
  have hfl : ((pool.chunksOf l).map fun ch => ch.map render).flatten = l.map render := by
    rw [← List.map_flatten, chunksOf_flatten]
  rw [WorkerPool.processPages,
    dispatchChunks_all_ok pool respond note render hw hresp 0 (pool.chunksOf l),
    promiseAll_map_ok]
  simp [hfl]

theorem promiseAll_dispatch_len (pool : WorkerPool) (respond : Respond) (note : SupernoteX)
    (hlen : ∀ wid ch imgs, respond wid note ch = .ok imgs → imgs.length = ch.length) :
    ∀ (chs : List (List Nat)) (k : Nat) (vs : List (List Image)),
      promiseAll (dispatchChunks pool respond note k chs) = .ok vs →
      vs.flatten.length = chs.flatten.length := by
  intro chs
  induction chs with
  | nil =>
    intro k vs h
    have h2 : (Except.ok ([] : List (List Image)) : Except Err _) = .ok vs := h
    cases h2
    rfl
  | cons ch rest ih =>
    intro k vs h
    simp only [dispatchChunks] at h
    cases hp : processChunk (pool.workerAt k) respond note ch with
    | error e =>
      rw [promiseAll_cons, hp] at h
      cases hq : promiseAll (dispatchChunks pool respond note (k + 1) rest) with
      | error e2 =>
        rw [hq] at h
        have h2 : (Except.error e : Except Err (List (List Image))) = .ok vs := h
        cases h2
      | ok vrest =>
        rw [hq] at h
        have h2 : (Except.error e : Except Err (List (List Image))) = .ok vs := h
        cases h2
    | ok v0 =>
      rw [promiseAll_cons, hp] at h
      cases hq : promiseAll (dispatchChunks pool respond note (k + 1) rest) with
      | error e2 =>
        rw [hq] at h
        have h2 : (Except.error e2 : Except Err (List (List Image))) = .ok vs := h
        cases h2
      | ok vrest =>
        rw [hq] at h
        have h2 : Except.ok (v0 :: vrest) = Except.ok vs := h
        cases h2
        have hv0 : v0.length = ch.length := by
          cases hwk : pool.workerAt k with
          | none =>
            rw [hwk] at hp
            have h3 : (Except.error Err.typeError : Except Err (List Image)) = .ok v0 := hp
            cases h3
          | some wid =>
            rw [hwk] at hp
            have h3 : respond wid note ch = .ok v0 := hp
            exact hlen wid ch v0 h3
        have hrest := ih (k + 1) vrest hq
        simp only [List.flatten_cons, List.length_append]
        omega

theorem processPages_terminated_nonempty (pool : WorkerPool) (respond : Respond)
    (note : SupernoteX) (hterm : pool.workers = []) (x : Nat) (xs : List Nat) :
    pool.processPages respond note (x :: xs) = .error .typeError := by
  have hw0 : pool.workers.length = 0 := by rw [hterm]; rfl
  have hcs : chunkSizeJS (x :: xs).length 0 = (x :: xs).length := by
    rw [chunkSizeJS]
    simp
  have hchunks : pool.chunksOf (x :: xs) = [x :: xs] := by
    rw [WorkerPool.chunksOf, hw0, hcs, chunksLoop_cons _ (by simp) x xs,
      List.take_length, List.drop_length, chunksLoop_nil]
  have hwa : pool.workerAt 0 = none := by
    rw [WorkerPool.workerAt, hterm]
    rfl
  rw [WorkerPool.processPages, hchunks]
  simp only [dispatchChunks]
  rw [hwa]
  rfl

/-! Claim theorems. -/

/-- C1: For every successful `convertToImages(document, indices)` call — under
the claim's stated assumption that each Worker Unit returns one render per
assigned page in the order given — the returned sequence has exactly
`len(indices)` elements and its element at position `i` is the render of page
`indices[i]`: the flattening in `processPages` concatenates the chunk results
in chunk order, which equals the input index order. -/
theorem convertToImages_ordered_complete (maxWorkers : Nat) (respond : Respond)
    (note : SupernoteX) (indices : List Nat) (render : Nat → Image)
    (hw : 1 ≤ maxWorkers)
    (hresp : ∀ wid ch, respond wid note ch = .ok (ch.map render)) :
    ∃ imgs,
      (ImageConverter.new maxWorkers).convertToImages respond note (some indices) = .ok imgs ∧
      imgs.length = indices.length ∧
      ∀ (i : Nat) (h1 : i < imgs.length) (h2 : i < indices.length),
        imgs.get ⟨i, h1⟩ = render (indices.get ⟨i, h2⟩) := by
  have hwne : (WorkerPool.new maxWorkers).workers ≠ [] := by
    simp [WorkerPool.new, List.range_eq_nil]
    omega
  refine ⟨indices.map render, ?_, by simp, ?_⟩
  · rw [ImageConverter.convertToImages]
    exact processPages_map _ respond note render indices hwne hresp
  · intro i h1 h2
    simp

/-- Witness for C1, at Scenario D of the specification: the explicit
out-of-natural-order page list `[3, 1]` on a three-page note. -/
theorem convertToImages_ordered_complete_witness :
    ∃ imgs,
      (ImageConverter.new 4).convertToImages respondAll note3 (some [3, 1]) = .ok imgs ∧
      imgs.length = ([3, 1] : List Nat).length ∧
      ∀ (i : Nat) (h1 : i < imgs.length) (h2 : i < ([3, 1] : List Nat).length),
        imgs.get ⟨i, h1⟩ = render0 (([3, 1] : List Nat).get ⟨i, h2⟩) :=
  convertToImages_ordered_complete 4 respondAll note3 [3, 1] render0 (by decide)
    (fun wid ch => rfl)

/-- C2: For every index list and every `poolSize ≥ 1`, the chunking step of
`processPages` uses `chunkSize = ceil(len / poolSize)`, splits the list into
contiguous slices of length `chunkSize` (the last possibly shorter), produces
at most `poolSize` chunks, produces no empty chunk unless the input is empty
(in which case zero chunks), and concatenating the chunks in order reproduces
the input exactly. -/
theorem chunking_partition (indices : List Nat) (p : Nat) (hp : 1 ≤ p) :
    chunkSizeJS indices.length p = (indices.length + p - 1) / p ∧
    (WorkerPool.new p).chunksOf indices = chunksLoop (chunkSizeJS indices.length p) indices ∧
    (chunksLoop (chunkSizeJS indices.length p) indices).flatten = indices ∧
    (chunksLoop (chunkSizeJS indices.length p) indices).length ≤ p ∧
    (∀ s ∈ chunksLoop (chunkSizeJS indices.length p) indices,
      s ≠ [] ∧ s.length ≤ chunkSizeJS indices.length p) ∧
    (indices = [] → chunksLoop (chunkSizeJS indices.length p) indices = []) ∧
    (∀ s ∈ (chunksLoop (chunkSizeJS indices.length p) indices).dropLast,
      s.length = chunkSizeJS indices.length p) := by
  refine ⟨?_, ?_, ?_, ?_, ?_, ?_, ?_⟩
  · rw [chunkSizeJS, if_neg (by omega)]
  · rw [WorkerPool.chunksOf]
    simp [WorkerPool.new]
  · cases indices with
    | nil => rfl
    | cons x xs => exact chunksLoop_flatten _ (chunkSizeJS_pos _ _ (by simp)) _
  · exact chunksLoop_count_le indices p hp
  · intro s hs
    cases indices with
    | nil => rw [chunksLoop_nil] at hs; simp at hs
    | cons x xs =>
      have hc := chunkSizeJS_pos (x :: xs).length p (by simp)
      exact ⟨chunksLoop_ne_nil _ hc _ s hs, chunksLoop_mem_len_le _ hc _ s hs⟩
  · intro h
    subst h
    rfl
  · intro s hs
    cases indices with
    | nil => rw [chunksLoop_nil] at hs; simp at hs
    | cons x xs =>
      have hc := chunkSizeJS_pos (x :: xs).length p (by simp)
      exact chunksLoop_dropLast_len _ hc _ s hs

/-- Witness for C2, at Scenario A of the specification: seven pages over a
pool of four workers, giving chunk size 2 and chunk sizes 2, 2, 2, 1. -/
theorem chunking_partition_witness :
    chunkSizeJS ([1, 2, 3, 4, 5, 6, 7] : List Nat).length 4 =
      (([1, 2, 3, 4, 5, 6, 7] : List Nat).length + 4 - 1) / 4 ∧
    (WorkerPool.new 4).chunksOf [1, 2, 3, 4, 5, 6, 7] =
      chunksLoop (chunkSizeJS ([1, 2, 3, 4, 5, 6, 7] : List Nat).length 4) [1, 2, 3, 4, 5, 6, 7] ∧
    (chunksLoop (chunkSizeJS ([1, 2, 3, 4, 5, 6, 7] : List Nat).length 4)
      [1, 2, 3, 4, 5, 6, 7]).flatten = [1, 2, 3, 4, 5, 6, 7] ∧
    (chunksLoop (chunkSizeJS ([1, 2, 3, 4, 5, 6, 7] : List Nat).length 4)
      [1, 2, 3, 4, 5, 6, 7]).length ≤ 4 ∧
    (∀ s ∈ chunksLoop (chunkSizeJS ([1, 2, 3, 4, 5, 6, 7] : List Nat).length 4)
      [1, 2, 3, 4, 5, 6, 7],
      s ≠ [] ∧ s.length ≤ chunkSizeJS ([1, 2, 3, 4, 5, 6, 7] : List Nat).length 4) ∧
    (([1, 2, 3, 4, 5, 6, 7] : List Nat) = [] →
      chunksLoop (chunkSizeJS ([1, 2, 3, 4, 5, 6, 7] : List Nat).length 4)
        [1, 2, 3, 4, 5, 6, 7] = []) ∧
    (∀ s ∈ (chunksLoop (chunkSizeJS ([1, 2, 3, 4, 5, 6, 7] : List Nat).length 4)
      [1, 2, 3, 4, 5, 6, 7]).dropLast,
      s.length = chunkSizeJS ([1, 2, 3, 4, 5, 6, 7] : List Nat).length 4) :=
  chunking_partition [1, 2, 3, 4, 5, 6, 7] 4 (by decide)

/-- C8: Calling `terminate()` on a pool leaves its worker collection empty,
and calling it again is a no-op (so any number of repeated calls, including on
a pool that never received work, reach the same state).  In the embedding the
body of `terminate()` is a total function — its JavaScript body contains no
throwing operation — which is the never-throws part of the claim. -/
theorem terminate_idempotent_safe (pool : WorkerPool) :
    pool.terminate.workers = [] ∧ pool.terminate.terminate = pool.terminate :=
  ⟨rfl, rfl⟩

/-- C9: In a single `processPages` call on a non-terminated pool, the number
of chunks never exceeds the pool size, and the round-robin worker indices
`k % poolSize` of the chunks are pairwise distinct, so each worker unit is
dispatched at most one chunk per call (and its `onmessage` handler is set at
most once per call). -/
theorem chunks_at_most_one_per_worker (pool : WorkerPool) (l : List Nat)
    (hp : 1 ≤ pool.workers.length) :
    (pool.chunksOf l).length ≤ pool.workers.length ∧
    ∀ k1 k2, k1 < (pool.chunksOf l).length → k2 < (pool.chunksOf l).length →
      k1 % pool.workers.length = k2 % pool.workers.length → k1 = k2 := by
  have hcount : (pool.chunksOf l).length ≤ pool.workers.length := by
    rw [WorkerPool.chunksOf]
    exact chunksLoop_count_le l _ hp
  refine ⟨hcount, fun k1 k2 h1 h2 heq => ?_⟩
  rw [Nat.mod_eq_of_lt (by omega), Nat.mod_eq_of_lt (by omega)] at heq
  exact heq

/-- Witness for C9: seven pages on a pool of four workers. -/
theorem chunks_at_most_one_per_worker_witness :
    ((WorkerPool.new 4).chunksOf [1, 2, 3, 4, 5, 6, 7]).length ≤
      (WorkerPool.new 4).workers.length ∧
    ∀ k1 k2, k1 < ((WorkerPool.new 4).chunksOf [1, 2, 3, 4, 5, 6, 7]).length →
      k2 < ((WorkerPool.new 4).chunksOf [1, 2, 3, 4, 5, 6, 7]).length →
      k1 % (WorkerPool.new 4).workers.length = k2 % (WorkerPool.new 4).workers.length →
      k1 = k2 :=
  chunks_at_most_one_per_worker (WorkerPool.new 4) [1, 2, 3, 4, 5, 6, 7] (by decide)

/-- C10: On a pool constructed with `maxWorkers ≥ 1` on which `terminate()`
has not been called, every worker lookup `workers[index % workers.length]`
performed by `processPages` is in bounds and yields an actual worker (the
optional lookup is never `none` on that path), and the chunking loop
terminates on every input because `chunkSize ≥ 1` whenever the input list is
non-empty, so each iteration strictly shrinks the unconsumed suffix. -/
theorem worker_lookup_in_bounds (maxWorkers : Nat) (k : Nat) (l : List Nat)
    (hw : 1 ≤ maxWorkers) (hl : l ≠ []) :
    ((WorkerPool.new maxWorkers).workerAt k).isSome = true ∧
    1 ≤ chunkSizeJS l.length (WorkerPool.new maxWorkers).workers.length ∧
    (l.drop (chunkSizeJS l.length (WorkerPool.new maxWorkers).workers.length)).length <
      l.length := by
  have hwne : (WorkerPool.new maxWorkers).workers ≠ [] := by
    simp [WorkerPool.new, List.range_eq_nil]
    omega
  have hn : 1 ≤ l.length := List.length_pos.mpr hl
  have hc := chunkSizeJS_pos l.length (WorkerPool.new maxWorkers).workers.length hn
  refine ⟨(WorkerPool.new maxWorkers).workerAt_isSome hwne k, hc, ?_⟩
  simp only [List.length_drop]
  omega

/-- Witness for C10: lookup index 5 on a two-worker pool with three pages. -/
theorem worker_lookup_in_bounds_witness :
    ((WorkerPool.new 2).workerAt 5).isSome = true ∧
    1 ≤ chunkSizeJS ([1, 2, 3] : List Nat).length (WorkerPool.new 2).workers.length ∧
    (([1, 2, 3] : List Nat).drop
      (chunkSizeJS ([1, 2, 3] : List Nat).length (WorkerPool.new 2).workers.length)).length <
      ([1, 2, 3] : List Nat).length :=
  worker_lookup_in_bounds 2 5 [1, 2, 3] (by decide) (by decide)

/-- C3 counterexample: a single `convertToImages` call creates no Worker Pool
and performs no `terminate()` at all — both resource counts of the call are
zero at a concrete input.  The pool is created by the `ImageConverter`
constructor before any call and torn down by the caller afterwards, so
`convertToImages` neither creates its own pool (two calls on one converter
share the constructor's pool) nor invokes `terminate()` once per exit path. -/
theorem convertToImages_creates_no_pool_counterexample :
    ((ImageConverter.new 4).convertToImagesEv respondAll note3 none).2.poolsCreated = 0 ∧
    ((ImageConverter.new 4).convertToImagesEv respondAll note3 none).2.terminateCalls = 0 :=
  ⟨rfl, rfl⟩

/-- C3 (amended): Each call site of `convertToImages` (`writeImageFiles`,
`exportToPDF`, `onLoadFile`) constructs one fresh `ImageConverter` — and hence
one fresh Worker Pool — per call and invokes `terminate()` on it exactly once
on every exit path through its `try`/`finally`: for every worker behaviour,
succeed or fail, the region performs exactly one pool creation and exactly one
`terminate()`, ends with the pool holding no workers, and its outcome is that
of the fresh converter's call. -/
theorem writeImageFiles_pool_lifecycle (maxWorkers : Nat) (respond : Respond)
    (note : SupernoteX) :
    (writeImageFilesLifecycle maxWorkers respond note).2.2 = ⟨1, maxWorkers, 1⟩ ∧
    (writeImageFilesLifecycle maxWorkers respond note).2.1.workerPool.workers = [] ∧
    (writeImageFilesLifecycle maxWorkers respond note).1 =
      (ImageConverter.new maxWorkers).convertToImages respond note none :=
  ⟨rfl, rfl, rfl⟩

/-- C4: If the render of any one chunk fails, `convertToImages` returns a
failure value and no image sequence; and — under the Worker Unit contract that
a successful chunk reply carries one image per assigned page — every
successful outcome is a complete result of `len(indices)` images, never a
partial prefix or subset. -/
theorem convertToImages_all_or_nothing (maxWorkers : Nat) (respond : Respond)
    (note : SupernoteX) (indices : List Nat)
    (hlen : ∀ wid ch imgs, respond wid note ch = .ok imgs → imgs.length = ch.length) :
    ((∃ ch ∈ (WorkerPool.new maxWorkers).chunksOf indices,
        ∀ wid, ∃ m, respond wid note ch = .error m) →
      ∃ e, (ImageConverter.new maxWorkers).convertToImages respond note (some indices) =
        .error e) ∧
    (∀ imgs,
      (ImageConverter.new maxWorkers).convertToImages respond note (some indices) = .ok imgs →
      imgs.length = indices.length) := by
  constructor
  · rintro ⟨ch, hmem, hfail⟩
    obtain ⟨p, hp, e, he⟩ :=
      dispatch_mem_error (WorkerPool.new maxWorkers) respond note ch hfail _ 0 hmem
    obtain ⟨e2, he2⟩ := promiseAll_error_of_mem_error _ ⟨p, hp, e, he⟩
    refine ⟨e2, ?_⟩
    rw [ImageConverter.convertToImages]
    show (WorkerPool.new maxWorkers).processPages respond note indices = .error e2
    rw [WorkerPool.processPages, he2]
  · intro imgs h
    rw [ImageConverter.convertToImages] at h
    have h2 : (WorkerPool.new maxWorkers).processPages respond note indices = .ok imgs := h
    rw [WorkerPool.processPages] at h2
    cases hq : promiseAll (dispatchChunks (WorkerPool.new maxWorkers) respond note 0
        ((WorkerPool.new maxWorkers).chunksOf indices)) with
    | error e =>
      rw [hq] at h2
      have h3 : (Except.error e : Except Err (List Image)) = .ok imgs := h2
      cases h3
    | ok vs =>
      rw [hq] at h2
      have h3 : (Except.ok vs.flatten : Except Err (List Image)) = .ok imgs := h2
      injection h3 with h4
      have h5 := promiseAll_dispatch_len (WorkerPool.new maxWorkers) respond note hlen
        ((WorkerPool.new maxWorkers).chunksOf indices) 0 vs hq
      rw [chunksOf_flatten] at h5
      rw [← h4, h5]

/-- Witness for C4, at Scenario C of the specification: three pages on a
two-worker pool, with page 2's render failing; the failing chunk is `[1, 2]`
and the whole call errors. -/
theorem convertToImages_all_or_nothing_witness :
    (∃ e, (ImageConverter.new 2).convertToImages respondFail note3 (some [1, 2, 3]) =
      .error e) ∧
    (∀ imgs,
      (ImageConverter.new 2).convertToImages respondFail note3 (some [1, 2, 3]) = .ok imgs →
      imgs.length = ([1, 2, 3] : List Nat).length) := by
  have hlen : ∀ wid ch imgs, respondFail wid note3 ch = .ok imgs → imgs.length = ch.length := by
    intro wid ch imgs h
    simp only [respondFail] at h
    split at h
    · cases h
    · injection h with h2
      rw [← h2]
      simp
  have h := convertToImages_all_or_nothing 2 respondFail note3 [1, 2, 3] hlen
  refine ⟨h.1 ⟨[1, 2], ?_, ?_⟩, h.2⟩
  · decide
  · intro wid
    exact ⟨.workerError "page 2 failed", rfl⟩

/-- C5 counterexample: after `terminate()`, a `processPages` call with an
empty page list silently returns an empty successful result — it neither
fails with any condition nor rejects the submission — refuting the claim that
every post-termination `processPages` call fails. -/
theorem processPages_terminated_empty_counterexample :
    (WorkerPool.new 4).terminate.processPages respondAll note3 [] = .ok [] := rfl

/-- C5 (amended): After `terminate()` the worker array is empty, so a
`processPages` call with a non-empty page list fails — the slot lookup yields
no worker and the chunk promise rejects with a TypeError, not with a labelled
pool-terminated condition — and no work reaches any worker; a call with an
empty page list, however, silently returns an empty successful result. -/
theorem processPages_after_terminate (pool : WorkerPool) (respond : Respond)
    (note : SupernoteX) (l : List Nat) (hterm : pool.workers = []) :
    (l ≠ [] → pool.processPages respond note l = .error .typeError) ∧
    pool.processPages respond note [] = .ok [] := by
  constructor
  · intro hl
    cases l with
    | nil => exact absurd rfl hl
    | cons x xs => exact processPages_terminated_nonempty pool respond note hterm x xs
  · rfl

/-- Witness for C5's amended statement: a freshly terminated four-worker pool
rejects the page list `[3]` and silently accepts the empty list. -/
theorem processPages_after_terminate_witness :
    ((WorkerPool.new 4).terminate.processPages respondAll note3 [3] = .error .typeError) ∧
    (WorkerPool.new 4).terminate.processPages respondAll note3 [] = .ok [] := by
  have h := processPages_after_terminate ((WorkerPool.new 4).terminate) respondAll note3 [3] rfl
  exact ⟨h.1 (by decide), h.2⟩

/-- C6 counterexample: the page index 5 lies outside `1..3` for the three-page
note, yet `convertToImages` succeeds — no `InvalidPageIndex` failure exists
anywhere in the code — and the out-of-range index is chunked and dispatched to
a worker unchanged. -/
theorem convertToImages_out_of_range_counterexample :
    (ImageConverter.new 2).convertToImages respondAll note3 (some [5]) = .ok ["p5"] ∧
    (WorkerPool.new 2).chunksOf [5] = [[5]] :=
  ⟨rfl, rfl⟩

/-- C6 (amended): `convertToImages` performs no validation of page indices:
any index list, even one containing indices beyond the document's page count,
is chunked and dispatched to the workers unchanged, and with workers that
render every assigned page the call succeeds and returns renders of exactly
the requested indices. -/
theorem convertToImages_no_index_validation (maxWorkers : Nat) (respond : Respond)
    (note : SupernoteX) (indices : List Nat) (render : Nat → Image)
    (hw : 1 ≤ maxWorkers)
    (hout : ∃ j ∈ indices, note.pages.length < j)
    (hresp : ∀ wid ch, respond wid note ch = .ok (ch.map render)) :
    (ImageConverter.new maxWorkers).convertToImages respond note (some indices) =
      .ok (indices.map render) := by
  have hwne : (WorkerPool.new maxWorkers).workers ≠ [] := by
    simp [WorkerPool.new, List.range_eq_nil]
    omega
  rw [ImageConverter.convertToImages]
  exact processPages_map _ respond note render indices hwne hresp

/-- Witness for C6's amended statement: index 7 on a zero-page note is
rendered without any rejection. -/
theorem convertToImages_no_index_validation_witness :
    (ImageConverter.new 1).convertToImages respondAll note0 (some [7]) =
      .ok (([7] : List Nat).map render0) :=
  convertToImages_no_index_validation 1 respondAll note0 [7] render0 (by decide)
    ⟨7, by decide, by decide⟩ (fun wid ch => rfl)

/-- C7 counterexample: on a zero-page document the full call path returns an
empty successful result, yet four Worker Units were still constructed — the
`ImageConverter` constructor builds its pool eagerly, before the page count is
consulted — refuting the claim that no Worker Unit is constructed for the
call. -/
theorem zero_pages_workers_constructed_counterexample :
    (writeImageFilesLifecycle 4 respondAll note0).1 = .ok [] ∧
    (writeImageFilesLifecycle 4 respondAll note0).2.2.workersConstructed = 4 :=
  ⟨rfl, rfl⟩

/-- C7 (amended): For an empty page-index set — in particular a zero-page
document under the default index set — `convertToImages` returns an empty
result, the chunker produces zero chunks, nothing is dispatched to any worker,
and the call itself constructs nothing; but the converter's pool, built by the
constructor, still holds `maxWorkers` eagerly constructed Worker Units. -/
theorem convertToImages_empty_short_circuit (maxWorkers : Nat) (respond : Respond)
    (note : SupernoteX) (hpages : note.pages = []) :
    (ImageConverter.new maxWorkers).convertToImages respond note none = .ok [] ∧
    (WorkerPool.new maxWorkers).chunksOf (defaultPages note) = [] ∧
    dispatchChunks (WorkerPool.new maxWorkers) respond note 0
      ((WorkerPool.new maxWorkers).chunksOf (defaultPages note)) = [] ∧
    ((ImageConverter.new maxWorkers).convertToImagesEv respond note none).2 = ⟨0, 0, 0⟩ ∧
    (WorkerPool.new maxWorkers).workers.length = maxWorkers := by
  have hdef : defaultPages note = [] := by
    rw [defaultPages, hpages]
    rfl
  refine ⟨?_, ?_, ?_, rfl, by simp [WorkerPool.new]⟩
  · rw [ImageConverter.convertToImages]
    show (WorkerPool.new maxWorkers).processPages respond note (defaultPages note) = .ok []
    rw [hdef]
    rfl
  · rw [hdef]
    rfl
  · rw [hdef]
    rfl

/-- Witness for C7's amended statement: a zero-page note on a four-worker
converter. -/
theorem convertToImages_empty_short_circuit_witness :
    (ImageConverter.new 4).convertToImages respondAll note0 none = .ok [] ∧
    (WorkerPool.new 4).chunksOf (defaultPages note0) = [] ∧
    dispatchChunks (WorkerPool.new 4) respondAll note0 0
      ((WorkerPool.new 4).chunksOf (defaultPages note0)) = [] ∧
    ((ImageConverter.new 4).convertToImagesEv respondAll note0 none).2 = ⟨0, 0, 0⟩ ∧
    (WorkerPool.new 4).workers.length = 4 :=
  convertToImages_empty_short_circuit 4 respondAll note0 rfl
